import Mathlib

/-!
Verification of the persistent content-addressed hash index of the bees
deduplication engine (`src/bees-hash.cc`).

The store is modelled per bucket: a bucket is a `List Cell` of `C` cells
(`C = c_cells_per_bucket`); machine 64-bit values are modelled as `Nat`
(no arithmetic overflow occurs in the modelled code paths: cells are only
compared, copied, and tested against the constant `0x1000`).

Operations are shallow embeddings of:
  * `verify_cell_range` (bees-hash.cc:38-66) and the prefetch verification
    pass (bees-hash.cc:181-221);
  * `BeesHashTable::find_cell` (bees-hash.cc:351-373);
  * `BeesHashTable::erase_hash_addr` (bees-hash.cc:380-401);
  * `BeesHashTable::push_front_hash_addr` (bees-hash.cc:408-452);
  * `BeesHashTable::push_random_hash_addr` (bees-hash.cc:459-540), with the
    thread-local uniform random position `pos` made an explicit parameter;
  * the dirty/missing extent-set protocol (`set_extent_dirty`,
    `fetch_missing_extent`, the writeback flush, and the prefetch loop,
    bees-hash.cc:94-148, 294-343).
-/

namespace Bees

/-- `BeesHashTable::Cell` (bees.h): a `(fingerprint, address)` pair of 64-bit
values; equality is field-wise. -/
structure Cell where
  e_hash : Nat
  e_addr : Nat
deriving DecidableEq

/-- The empty cell `Cell(0, 0)`. -/
def czero : Cell := ⟨0, 0⟩

/-- Effect of `std::find(er.first, er.second, mv)`: index of the first cell
equal to `mv`, if any. -/
def findFirst (cells : List Cell) (mv : Cell) : Option Nat :=
  match cells with
  | [] => none
  | c :: rest => if c = mv then some 0 else (findFirst rest mv).map (· + 1)

/-- Effect of the downward scan
`for (ip = er.first + pos - 1; ip >= er.first; --ip)` in
`push_random_hash_addr` (bees-hash.cc:510-518): the first empty cell found
scanning indices `pos - 1, pos - 2, ..., 0`. The argument is `pos`; the scan
only runs when `pos > 0`. -/
def findEmptyDown (bucket : List Cell) : Nat → Option Nat
  | 0 => none
  | i + 1 => if bucket.getD i czero = czero then some i else findEmptyDown bucket i

/-- Effect of the backward copy loop `while (dp > er.first + lo) *dp-- = *sp--`
started with `dp = hi`, `sp = hi - 1` (bees-hash.cc:427-438, 480-488), and of
`std::move_backward(er.first + lo, er.second - 1, er.second)`
(bees-hash.cc:521): every index `k` with `lo < k ≤ hi` receives the old cell
at `k - 1`; all other cells are unchanged. The loop iterates downward, so each
source cell is read before it is overwritten. -/
def shiftRightFrom (b : List Cell) (lo hi : Nat) : List Cell :=
  (List.range b.length).map (fun k =>
    if lo < k ∧ k ≤ hi then b.getD (k - 1) czero else b.getD k czero)

/-- The specification's description of the same transformation: rotate the
index range `[lo, hi]` to the right by one (the cell at `hi` moves to `lo`). -/
def rotRight (b : List Cell) (lo hi : Nat) : List Cell :=
  (List.range b.length).map (fun k =>
    if lo ≤ k ∧ k ≤ hi then
      (if k = lo then b.getD hi czero else b.getD (k - 1) czero)
    else b.getD k czero)

/-- Result of a bucket mutation by `push_front_hash_addr`: the new bucket
contents, whether `set_extent_dirty` was called, whether `hash_evict` was
counted, and the boolean return value. -/
structure PFResult where
  bucket : List Cell
  dirty : Bool
  evicted : Bool
  found : Bool
deriving DecidableEq

/-- `BeesHashTable::push_front_hash_addr` (bees-hash.cc:408-452), restricted
to its effect on the bucket of `hash`. `ip` is the shift source:
the first cell equal to `mv = (hash, addr)` (`std::find`), otherwise the
first empty cell, otherwise the end of the bucket. When `ip` is the end of
the bucket the copy loop starts one cell earlier, dropping the last cell
(`hash_evict`). Finally `mv` is written at index 0 if not already there,
dirtying the extent. -/
def push_front_hash_addr (bucket : List Cell) (hash addr : Nat) : PFResult :=
  let mv : Cell := ⟨hash, addr⟩
  let n := bucket.length
  let ip : Nat :=
    match findFirst bucket mv with
    | some i => i
    | none =>
      match findFirst bucket czero with
      | some i => i
      | none => n
  let found : Bool := (findFirst bucket mv).isSome
  let evicted : Bool := decide (0 < ip ∧ ip = n)
  let shifted : List Cell :=
    if 0 < ip then shiftRightFrom bucket 0 (if ip = n then n - 1 else ip) else bucket
  if shifted.getD 0 czero = mv then
    ⟨shifted, false, evicted, found⟩
  else
    ⟨shifted.set 0 mv, true, evicted, found⟩

/-- The shift source of `push_front_hash_addr` in the specification's terms:
the matching cell if present, else the first empty cell, else the last cell
of the bucket. -/
def pfSource (bucket : List Cell) (mv : Cell) : Nat :=
  match findFirst bucket mv with
  | some i => i
  | none =>
    match findFirst bucket czero with
    | some i => i
    | none => bucket.length - 1

/-- Result of a bucket mutation by `push_random_hash_addr` or
`erase_hash_addr`: the new bucket contents, whether `set_extent_dirty` was
called, and the boolean return value. -/
structure PRResult where
  bucket : List Cell
  dirty : Bool
  found : Bool
deriving DecidableEq

/-- `BeesHashTable::push_random_hash_addr` (bees-hash.cc:459-540), restricted
to its effect on the bucket of `hash`; `pos` is the value drawn from the
thread-local uniform distribution on `[0, c_cells_per_bucket - 1]`.
Cases in the source's order: a match after `pos` is shifted to `pos`
(`hash_bump`); a match at or before `pos` is left alone (`hash_already`);
otherwise the entry is written into the first empty cell at or after `pos`,
else the first empty cell found scanning down from `pos - 1`, else the
bucket tail `[pos, C-1)` is moved back one cell (`std::move_backward`,
evicting the last cell) and the entry is written at `pos`. -/
def push_random_hash_addr (bucket : List Cell) (hash addr pos : Nat) : PRResult :=
  let mv : Cell := ⟨hash, addr⟩
  match findFirst bucket mv with
  | some ip =>
    if pos < ip then
      ⟨(shiftRightFrom bucket pos ip).set pos mv, true, true⟩
    else
      ⟨bucket, false, true⟩
  | none =>
    match findFirst (bucket.drop pos) czero with
    | some j => ⟨bucket.set (pos + j) mv, true, false⟩
    | none =>
      match findEmptyDown bucket pos with
      | some i => ⟨bucket.set i mv, true, false⟩
      | none => ⟨(shiftRightFrom bucket pos (bucket.length - 1)).set pos mv, true, false⟩

/-- Modelled from the spec: `BeesAddress` (declared in `bees.h`, which is not
under `src/`) packs flag bits — *compressed*, *has-compressed-offset*,
*toxic*, *unaligned-eof* — into the 64-bit address value; the spec fixes no
bit positions, so the toxic flag is represented here as one distinguished
high bit clear of the low address bits. -/
def c_toxic_mask : Nat := 2 ^ 60

/-- Modelled from the spec: `BeesAddress::set_toxic()` (bees.h, not under
`src/`) sets the toxic flag bit of an address. -/
def set_toxic (a : Nat) : Nat := a ||| c_toxic_mask

/-- Modelled from the spec: `BeesAddress::is_toxic()` (bees.h, not under
`src/`) tests the toxic flag bit of an address. -/
def is_toxic_addr (a : Nat) : Bool := decide (a &&& c_toxic_mask ≠ 0)

/-- The part of the hash table state that a single `find_cell` call can see:
the in-memory cells of the fingerprint's bucket, the backing-file contents of
that bucket, and whether the containing extent is still in
`m_buckets_missing`. -/
structure HashTableView where
  cells : List Cell
  fcells : List Cell
  missing : Bool
deriving DecidableEq

/-- `BeesHashTable::fetch_missing_extent` (bees-hash.cc:294-343) restricted
to one bucket: if the containing extent is missing, its in-memory contents
are read from the backing file and the extent leaves the missing set;
otherwise nothing happens. -/
def fetch_missing_extent_view (s : HashTableView) : HashTableView :=
  if s.missing then ⟨s.fcells, s.fcells, false⟩ else s

/-- `BeesHashTable::find_cell` (bees-hash.cc:351-373). For a toxic
fingerprint a single synthetic cell with address `0x1000` and the toxic flag
is returned without touching the store; otherwise the containing extent is
paged in if needed and the matching cells with valid addresses are copied
out (`std::copy_if`, bees-hash.cc:370). -/
def find_cell (toxic : Nat → Bool) (s : HashTableView) (hash : Nat) :
    List Cell × HashTableView :=
  if toxic hash then
    ([⟨hash, set_toxic 0x1000⟩], s)
  else
    let s1 := fetch_missing_extent_view s
    (s1.cells.filter (fun c => c.e_hash == hash && decide (0x1000 ≤ c.e_addr)), s1)

/-- `BeesHashTable::erase_hash_addr` (bees-hash.cc:380-401): the first cell
equal to `(hash, addr)` is overwritten with `Cell(0, 0)` and the extent is
marked dirty (`hash_erase` is counted, modelled by the `found` field);
without a match nothing happens. -/
def erase_hash_addr (bucket : List Cell) (hash addr : Nat) : PRResult :=
  let mv : Cell := ⟨hash, addr⟩
  match findFirst bucket mv with
  | some i => ⟨bucket.set i czero, true, true⟩
  | none => ⟨bucket, false, false⟩

/-- `VERIFY_CLEARS_BUGS` (bees-hash.cc:36): compile-time switch deciding
whether `verify_cell_range` repairs the bugs it finds. It is `false` in the
source, and the only live call site (the prefetch loop, bees-hash.cc:190)
uses the default argument, so verification never clears cells. -/
def VERIFY_CLEARS_BUGS : Bool := false

/-- `verify_cell_range` (bees-hash.cc:38-66) on the cells of one bucket.
`seen` is the `seen_it` set accumulated so far (order of accumulation is
irrelevant; membership is what the source's `std::set::insert` reports).
Per cell, in source order: a non-empty cell with address below `0x1000` is a
`bug_hash_magic_addr` (cleared when `clear_bugs`); then, if the (possibly
cleared) cell is non-empty, it is inserted into `seen_it`, and a failed
insert is a `bug_hash_duplicate_cell` (cleared when `clear_bugs`). The
result is the rewritten cell list and the `bugs_found` flag. -/
def verify_cell_range (clear_bugs : Bool) : List Cell → List Cell → List Cell × Bool
  | _, [] => ([], false)
  | seen, cell :: rest =>
    let magicBug : Bool := decide (cell.e_addr ≠ 0 ∧ cell.e_addr < 0x1000)
    let cell1 : Cell := if magicBug && clear_bugs then czero else cell
    let dupBug : Bool := decide (cell1.e_addr ≠ 0 ∧ cell1 ∈ seen)
    let seen1 : List Cell :=
      if cell1.e_addr ≠ 0 ∧ cell1 ∉ seen then cell1 :: seen else seen
    let cell2 : Cell := if dupBug && clear_bugs then czero else cell1
    let r := verify_cell_range clear_bugs seen1 rest
    (cell2 :: r.1, magicBug || dupBug || r.2)

/-- The verification part of one iteration of the prefetch loop
(bees-hash.cc:186-221): every bucket of the extent is scanned with
`verify_cell_range` at its default `clear_bugs = VERIFY_CLEARS_BUGS`; if any
bucket reported bugs (`duplicate_bugs_found`), `set_extent_dirty` is called
(bees-hash.cc:218-220). -/
def prefetch_verify_extent (buckets : List (List Cell)) : List (List Cell) × Bool :=
  let results := buckets.map (fun b => verify_cell_range VERIFY_CLEARS_BUGS [] b)
  (results.map Prod.fst, results.any Prod.snd)

/-- Specification-side predicate: a non-empty cell with a reserved
(sub-`0x1000`) address. -/
def cellMagic (c : Cell) : Bool := decide (c.e_addr ≠ 0 ∧ c.e_addr < 0x1000)

/-- Specification-side predicate: some non-empty cell value occurs twice in
the list. -/
def hasDupCell : List Cell → Bool
  | [] => false
  | c :: r => decide (c.e_addr ≠ 0 ∧ c ∈ r) || hasDupCell r

/-- Specification-side predicate: the bucket violates a structural invariant
of §3 — a magic-address cell or a duplicated non-empty cell. -/
def hasViolation (cells : List Cell) : Bool :=
  cells.any cellMagic || hasDupCell cells

/-- The extent-set state of the table: `m_buckets_missing` and
`m_buckets_dirty` (both hold extent numbers despite their names,
bees-hash.cc:100, 138, 304, 342, 652). -/
structure ExtState where
  missing : Finset Nat
  dirty : Finset Nat
deriving DecidableEq

/-- `get_extent_range` (bees-hash.cc:81-92): the extent number containing the
bucket of `hash` is `(hash % m_buckets) / c_buckets_per_extent`. -/
def extent_of (m_buckets cbpe hash : Nat) : Nat := (hash % m_buckets) / cbpe

/-- `BeesHashTable::set_extent_dirty` (bees-hash.cc:130-140): insert the
extent of `hash` into the dirty set and wake the writeback thread. -/
def set_extent_dirty (m_buckets cbpe hash : Nat) (s : ExtState) : ExtState :=
  { s with dirty := insert (extent_of m_buckets cbpe hash) s.dirty }

/-- `BeesHashTable::fetch_missing_extent` (bees-hash.cc:294-343) at the
extent-set level. `ok` records whether the `pread_or_die` of the extent's
contents (bees-hash.cc:334) succeeded: only then is the extent erased from
the missing set (bees-hash.cc:342); on failure the function throws with the
extent still missing. (An already-loaded extent returns early without any
read; erasing a non-member is the identity, so `ok` is immaterial there.) -/
def fetch_missing_extent (m_buckets cbpe hash : Nat) (ok : Bool) (s : ExtState) :
    ExtState :=
  if ok then { s with missing := s.missing.erase (extent_of m_buckets cbpe hash) }
  else s

/-- Common extent-set shape of the scanner operations `find_cell`,
`erase_hash_addr`, `push_front_hash_addr` and `push_random_hash_addr`
(bees-hash.cc:364, 383, 411, 462): each fetches the missing extent of `hash`
first and, if that did not throw (`ok`), calls `set_extent_dirty hash` when
it mutated the bucket (`dirtied`, which depends on the bucket contents). A
failed fetch propagates out of the operation before any mutation. -/
def scanner_op (m_buckets cbpe hash : Nat) (ok dirtied : Bool) (s : ExtState) :
    ExtState :=
  let s1 := fetch_missing_extent m_buckets cbpe hash ok s
  if ok then (if dirtied then set_extent_dirty m_buckets cbpe hash s1 else s1)
  else s1

/-- One iteration of the prefetch loop body (bees-hash.cc:181-221):
`fetch_missing_extent(ext * c_buckets_per_extent)` and then, if the verifier
found bugs in this extent (`bug ext`), `set_extent_dirty(ext)` — passing the
extent *index* where a hash is expected. The whole iteration sits inside a
per-extent `catch_all` (bees-hash.cc:183), so a failed read (`ok ext` false)
skips the scan and the dirty mark for this extent and the loop continues. -/
def prefetch_step (m_buckets cbpe : Nat) (ok bug : Nat → Bool) (ext : Nat)
    (s : ExtState) : ExtState :=
  let s1 := fetch_missing_extent m_buckets cbpe (ext * cbpe) (ok ext) s
  if ok ext then (if bug ext then set_extent_dirty m_buckets cbpe ext s1 else s1)
  else s1

/-- The startup prefetch pass: all extents, in ascending order; `ok` records
which extent reads succeed. -/
def prefetch_pass (m_buckets cbpe m_extents : Nat) (ok bug : Nat → Bool)
    (s : ExtState) : ExtState :=
  (List.range m_extents).foldl
    (fun t ext => prefetch_step m_buckets cbpe ok bug ext t) s

/-- `flush_dirty_extents` (bees-hash.cc:94-128) at the extent-set level:
snapshot and clear the dirty set (the snapshot is then written out extent by
extent under the rate limiter). -/
def flush_dirty_extents (s : ExtState) : ExtState := { s with dirty := ∅ }

/-- The initial extent-set state (bees-hash.cc:651-653): every extent is
missing, none is dirty. -/
def initState (m_extents : Nat) : ExtState := ⟨Finset.range m_extents, ∅⟩

/-- The operations that touch the extent sets during operation, with
per-operation read-success oracles (`catch_all` / propagated exceptions
swallow failures without terminating the tasks). -/
inductive Step (m_buckets cbpe m_extents : Nat) : ExtState → ExtState → Prop
  | scanner (hash : Nat) (ok dirtied : Bool) (s : ExtState) :
      Step m_buckets cbpe m_extents s (scanner_op m_buckets cbpe hash ok dirtied s)
  | prefetch (ok bug : Nat → Bool) (s : ExtState) :
      Step m_buckets cbpe m_extents s
        (prefetch_pass m_buckets cbpe m_extents ok bug s)
  | flush (s : ExtState) :
      Step m_buckets cbpe m_extents s (flush_dirty_extents s)

/-- The same operations restricted to runs in which every extent read issued
by the prefetch/analyzer pass succeeds (scanner page-ins may still fail: a
failed scanner fetch aborts its operation before any mutation). -/
inductive StepOk (m_buckets cbpe m_extents : Nat) : ExtState → ExtState → Prop
  | scanner (hash : Nat) (ok dirtied : Bool) (s : ExtState) :
      StepOk m_buckets cbpe m_extents s (scanner_op m_buckets cbpe hash ok dirtied s)
  | prefetch (bug : Nat → Bool) (s : ExtState) :
      StepOk m_buckets cbpe m_extents s
        (prefetch_pass m_buckets cbpe m_extents (fun _ => true) bug s)
  | flush (s : ExtState) :
      StepOk m_buckets cbpe m_extents s (flush_dirty_extents s)

theorem findFirst_eq_none_iff (l : List Cell) (mv : Cell) :
    findFirst l mv = none ↔ mv ∉ l := by
  induction l with
  | nil => simp [findFirst]
  | cons c rest ih =>
    by_cases hc : c = mv
    · simp [findFirst, hc]
    · simp only [findFirst, if_neg hc, Option.map_eq_none', ih, List.mem_cons, not_or]
      exact ⟨fun h => ⟨fun he => hc he.symm, h⟩, fun h => h.2⟩

theorem findFirst_eq_some_iff (l : List Cell) (mv : Cell) (i : Nat) :
    findFirst l mv = some i ↔
      (i < l.length ∧ l.getD i czero = mv ∧ ∀ j, j < i → l.getD j czero ≠ mv) := by
  induction l generalizing i with
  | nil => simp [findFirst]
  | cons c rest ih =>
    by_cases hc : c = mv
    · simp only [findFirst, if_pos hc]
      constructor
      · rintro h
        cases h
        exact ⟨by simp, by simpa using hc, by omega⟩
      · rintro ⟨_, _, hmin⟩
        rcases Nat.eq_zero_or_pos i with rfl | hi
        · rfl
        · exact absurd (by simpa using hc) (hmin 0 hi)
    · simp only [findFirst, if_neg hc]
      cases i with
      | zero =>
        simp only [Option.map_eq_some']
        constructor
        · rintro ⟨j, _, h⟩; omega
        · rintro ⟨_, h0, _⟩
          exact absurd (by simpa using h0) hc
      | succ k =>
        constructor
        · intro h
          rcases Option.map_eq_some'.mp h with ⟨j, hj, hjk⟩
          have hjk' : j = k := by omega
          rw [hjk'] at hj
          rcases (ih k).mp hj with ⟨h1, h2, h3⟩
          refine ⟨by simpa using h1, by simpa using h2, ?_⟩
          intro j hjlt
          cases j with
          | zero => simpa using hc
          | succ m => simpa using h3 m (by omega)
        · rintro ⟨h1, h2, h3⟩
          have : findFirst rest mv = some k := by
            refine (ih k).mpr ⟨by simpa using h1, by simpa using h2, ?_⟩
            intro m hm
            simpa using h3 (m + 1) (by omega)
          simp [this]

theorem findFirst_isSome_iff (l : List Cell) (mv : Cell) :
    (findFirst l mv).isSome = true ↔ mv ∈ l := by
  rcases h : findFirst l mv with _ | i
  · simpa using (findFirst_eq_none_iff l mv).mp h
  · simp only [Option.isSome_some, true_iff]
    rcases (findFirst_eq_some_iff l mv i).mp h with ⟨h1, h2, _⟩
    have := List.getD_eq_getElem l czero h1
    rw [this] at h2
    exact h2 ▸ List.getElem_mem h1

theorem mem_iff_getD (l : List Cell) (x : Cell) :
    x ∈ l ↔ ∃ i, i < l.length ∧ l.getD i czero = x := by
  constructor
  · intro hx
    rcases List.mem_iff_getElem.mp hx with ⟨i, hi, hg⟩
    exact ⟨i, hi, by rw [List.getD_eq_getElem l czero hi, hg]⟩
  · rintro ⟨i, hi, hg⟩
    rw [List.getD_eq_getElem l czero hi] at hg
    exact hg ▸ List.getElem_mem hi

theorem getD_drop (l : List Cell) (p j : Nat) :
    (l.drop p).getD j czero = l.getD (p + j) czero := by
  induction p generalizing l with
  | zero => simp
  | succ n ih =>
    cases l with
    | nil => simp
    | cons c rest =>
      simp only [List.drop_succ_cons, Nat.succ_add, List.getD_cons_succ]
      exact ih rest

theorem findEmptyDown_eq_some_iff (b : List Cell) (pos i : Nat) :
    findEmptyDown b pos = some i ↔
      (i < pos ∧ b.getD i czero = czero ∧
        ∀ j, i < j → j < pos → b.getD j czero ≠ czero) := by
  induction pos with
  | zero => simp [findEmptyDown]
  | succ p ih =>
    by_cases hp : b.getD p czero = czero
    · simp only [findEmptyDown, if_pos hp]
      constructor
      · rintro h
        cases h
        exact ⟨by omega, hp, by omega⟩
      · rintro ⟨h1, h2, h3⟩
        rcases Nat.lt_or_ge i p with hip | hip
        · exact absurd hp (h3 p hip (by omega))
        · have : i = p := by omega
          simp [this]
    · simp only [findEmptyDown, if_neg hp]
      rw [ih]
      constructor
      · rintro ⟨h1, h2, h3⟩
        refine ⟨by omega, h2, ?_⟩
        intro j hj1 hj2
        rcases Nat.lt_or_ge j p with hjp | hjp
        · exact h3 j hj1 hjp
        · have : j = p := by omega
          simpa [this] using hp
      · rintro ⟨h1, h2, h3⟩
        have hip : i ≠ p := fun h => hp (h ▸ h2)
        exact ⟨by omega, h2, fun j hj1 hj2 => h3 j hj1 (by omega)⟩

theorem findEmptyDown_eq_none_iff (b : List Cell) (pos : Nat) :
    findEmptyDown b pos = none ↔ ∀ j, j < pos → b.getD j czero ≠ czero := by
  induction pos with
  | zero => simp [findEmptyDown]
  | succ p ih =>
    by_cases hp : b.getD p czero = czero
    · simp only [findEmptyDown, if_pos hp]
      constructor
      · intro h; cases h
      · intro h; exact absurd hp (h p (by omega))
    · simp only [findEmptyDown, if_neg hp]
      rw [ih]
      constructor
      · intro h j hj1
        rcases Nat.lt_or_ge j p with hjp | hjp
        · exact h j hjp
        · have : j = p := by omega
          simpa [this] using hp
      · intro h j hj
        exact h j (by omega)

theorem length_shiftRightFrom (b : List Cell) (lo hi : Nat) :
    (shiftRightFrom b lo hi).length = b.length := by
  simp [shiftRightFrom]

theorem length_rotRight (b : List Cell) (lo hi : Nat) :
    (rotRight b lo hi).length = b.length := by
  simp [rotRight]

theorem getD_shiftRightFrom (b : List Cell) (lo hi k : Nat) (hk : k < b.length) :
    (shiftRightFrom b lo hi).getD k czero =
      if lo < k ∧ k ≤ hi then b.getD (k - 1) czero else b.getD k czero := by
  have hk' : k < (shiftRightFrom b lo hi).length := by
    rwa [length_shiftRightFrom]
  rw [List.getD_eq_getElem _ czero hk']
  simp [shiftRightFrom]

theorem getD_rotRight (b : List Cell) (lo hi k : Nat) (hk : k < b.length) :
    (rotRight b lo hi).getD k czero =
      if lo ≤ k ∧ k ≤ hi then
        (if k = lo then b.getD hi czero else b.getD (k - 1) czero)
      else b.getD k czero := by
  have hk' : k < (rotRight b lo hi).length := by
    rwa [length_rotRight]
  rw [List.getD_eq_getElem _ czero hk']
  simp [rotRight]

/-- Writing `mv` at `lo` after the backward copy loop produces the same bucket
as writing `mv` at `lo` after a right rotation of `[lo, hi]`: the two
transformations differ only at index `lo`, which is overwritten. -/
theorem shiftRight_set_eq_rotRight_set (b : List Cell) (lo hi : Nat) (mv : Cell) :
    (shiftRightFrom b lo hi).set lo mv = (rotRight b lo hi).set lo mv := by
  apply List.ext_getElem
  · simp [length_shiftRightFrom, length_rotRight]
  · intro k h1 h2
    rw [List.length_set, length_shiftRightFrom] at h1
    simp only [List.getElem_set]
    by_cases hlo : lo = k
    · simp [hlo]
    · have hs : k < (shiftRightFrom b lo hi).length := by rwa [length_shiftRightFrom]
      have hr : k < (rotRight b lo hi).length := by rwa [length_rotRight]
      rw [if_neg hlo, if_neg hlo, ← List.getD_eq_getElem _ czero hs,
        ← List.getD_eq_getElem _ czero hr, getD_shiftRightFrom _ _ _ _ h1,
        getD_rotRight _ _ _ _ h1]
      by_cases hc1 : lo < k ∧ k ≤ hi
      · rw [if_pos hc1, if_pos ⟨by omega, hc1.2⟩, if_neg (by omega)]
      · rw [if_neg hc1, if_neg (by
          rintro ⟨ha, hb⟩
          exact hc1 ⟨by omega, hb⟩)]

/-- Rotating the one-element range `[lo, lo]` and then overwriting index `lo`
is just overwriting index `lo`. -/
theorem rotRight_set_self (b : List Cell) (lo : Nat) (mv : Cell) :
    (rotRight b lo lo).set lo mv = b.set lo mv := by
  apply List.ext_getElem
  · simp [length_rotRight]
  · intro k h1 h2
    rw [List.length_set, length_rotRight] at h1
    simp only [List.getElem_set]
    by_cases hlo : lo = k
    · simp [hlo]
    · have hr : k < (rotRight b lo lo).length := by rwa [length_rotRight]
      rw [if_neg hlo, if_neg hlo, ← List.getD_eq_getElem _ czero hr,
        getD_rotRight _ _ _ _ h1, if_neg (by rintro ⟨ha, hb⟩; exact hlo (by omega)),
        List.getD_eq_getElem _ czero h1]

/-- Overwriting index `k` with the value it already holds leaves the list
unchanged. -/
theorem set_eq_self_of_getD (b : List Cell) (k : Nat) (mv : Cell)
    (h : b.getD k czero = mv) : b.set k mv = b := by
  apply List.ext_getElem
  · simp
  · intro j h1 h2
    simp only [List.getElem_set]
    by_cases hkj : k = j
    · subst hkj
      rw [if_pos rfl, ← h, List.getD_eq_getElem _ czero h2]
    · rw [if_neg hkj]

theorem getD_mem (b : List Cell) (k : Nat) (hk : k < b.length) :
    b.getD k czero ∈ b := by
  rw [List.getD_eq_getElem _ czero hk]
  exact List.getElem_mem hk

theorem getD_set_eq (l : List Cell) (k : Nat) (mv : Cell) (hk : k < l.length) :
    (l.set k mv).getD k czero = mv := by
  have hk' : k < (l.set k mv).length := by simpa using hk
  rw [List.getD_eq_getElem _ czero hk', List.getElem_set, if_pos rfl]

/-- C2: `push_front(hash, addr)` leaves `(hash, addr)` at bucket index 0 by
rotating the index range `[0, source]` right by one, where the source is the
matching cell if present, else the first empty cell, else the last cell of
the bucket; it returns true iff a matching cell was present, and the
last-cell case (an eviction) occurs exactly when the entry is new and the
bucket is full. -/
theorem push_front_spec (bucket : List Cell) (h a : Nat) (hn : 0 < bucket.length) :
    (push_front_hash_addr bucket h a).bucket
      = (rotRight bucket 0 (pfSource bucket ⟨h, a⟩)).set 0 ⟨h, a⟩ ∧
    (push_front_hash_addr bucket h a).bucket.getD 0 czero = ⟨h, a⟩ ∧
    ((push_front_hash_addr bucket h a).found = true ↔ (⟨h, a⟩ : Cell) ∈ bucket) ∧
    ((push_front_hash_addr bucket h a).evicted = true ↔
      ((⟨h, a⟩ : Cell) ∉ bucket ∧ czero ∉ bucket)) := by
  rcases hf : findFirst bucket ⟨h, a⟩ with _ | i
  · -- no matching cell
    have hnotmem : (⟨h, a⟩ : Cell) ∉ bucket := (findFirst_eq_none_iff bucket _).mp hf
    have hg0 : bucket.getD 0 czero ≠ (⟨h, a⟩ : Cell) :=
      fun hEq => hnotmem (hEq ▸ getD_mem bucket 0 hn)
    rcases hf2 : findFirst bucket czero with _ | e
    · -- no empty cell either: evict the last cell
      have hnoempty : czero ∉ bucket := (findFirst_eq_none_iff bucket czero).mp hf2
      have hsh : (shiftRightFrom bucket 0 (bucket.length - 1)).getD 0 czero
          = bucket.getD 0 czero := by
        rw [getD_shiftRightFrom _ _ _ _ hn]
        simp
      have hcond : ¬ ((shiftRightFrom bucket 0 (bucket.length - 1)).getD 0 czero
          = (⟨h, a⟩ : Cell)) := by
        rw [hsh]; exact hg0
      have hval : push_front_hash_addr bucket h a =
          ⟨(shiftRightFrom bucket 0 (bucket.length - 1)).set 0 ⟨h, a⟩, true,
            true, false⟩ := by
        simp [push_front_hash_addr, hf, hf2, hn, ← List.getD_eq_getElem?_getD, hcond]
      have hsrc : pfSource bucket ⟨h, a⟩ = bucket.length - 1 := by
        simp only [pfSource, hf, hf2]
      rw [hval, hsrc]
      refine ⟨shiftRight_set_eq_rotRight_set bucket 0 (bucket.length - 1) _, ?_, ?_, ?_⟩
      · exact getD_set_eq _ 0 _ (by rw [length_shiftRightFrom]; exact hn)
      · simp [hnotmem]
      · simp [hnotmem, hnoempty]
    · -- first empty cell is the source
      rcases (findFirst_eq_some_iff bucket czero e).mp hf2 with ⟨he, hge, _⟩
      have hemem : czero ∈ bucket := hge ▸ getD_mem bucket e he
      rcases Nat.eq_zero_or_pos e with rfl | he0
      · -- empty cell at index 0: no shift, write at 0
        have hval : push_front_hash_addr bucket h a =
            ⟨bucket.set 0 ⟨h, a⟩, true, false, false⟩ := by
          simp [push_front_hash_addr, hf, hf2, ← List.getD_eq_getElem?_getD, hg0]
        have hsrc : pfSource bucket ⟨h, a⟩ = 0 := by
          simp only [pfSource, hf, hf2]
        rw [hval, hsrc, rotRight_set_self]
        refine ⟨rfl, getD_set_eq _ 0 _ hn, ?_, ?_⟩
        · simp [hnotmem]
        · simp [hemem]
      · -- empty cell at index e > 0: shift [1, e], write at 0
        have hen : e ≠ bucket.length := by omega
        have hsh : (shiftRightFrom bucket 0 e).getD 0 czero = bucket.getD 0 czero := by
          rw [getD_shiftRightFrom _ _ _ _ hn]
          simp
        have hcond : ¬ ((shiftRightFrom bucket 0 e).getD 0 czero = (⟨h, a⟩ : Cell)) := by
          rw [hsh]; exact hg0
        have hval : push_front_hash_addr bucket h a =
            ⟨(shiftRightFrom bucket 0 e).set 0 ⟨h, a⟩, true, false, false⟩ := by
          simp [push_front_hash_addr, hf, hf2, he0, hen, ← List.getD_eq_getElem?_getD, hcond]
        have hsrc : pfSource bucket ⟨h, a⟩ = e := by
          simp only [pfSource, hf, hf2]
        rw [hval, hsrc]
        refine ⟨shiftRight_set_eq_rotRight_set bucket 0 e _, ?_, ?_, ?_⟩
        · exact getD_set_eq _ 0 _ (by rw [length_shiftRightFrom]; exact hn)
        · simp [hnotmem]
        · simp [hemem]
  · -- matching cell at first index i
    rcases (findFirst_eq_some_iff bucket _ i).mp hf with ⟨hi, hgi, hmin⟩
    have hmem : (⟨h, a⟩ : Cell) ∈ bucket := hgi ▸ getD_mem bucket i hi
    have hsrc : pfSource bucket ⟨h, a⟩ = i := by
      simp only [pfSource, hf]
    rcases Nat.eq_zero_or_pos i with rfl | hi0
    · -- match already at the front: nothing changes
      have hval : push_front_hash_addr bucket h a = ⟨bucket, false, false, true⟩ := by
        simp [push_front_hash_addr, hf, ← List.getD_eq_getElem?_getD, hgi]
      rw [hval, hsrc, rotRight_set_self, set_eq_self_of_getD bucket 0 _ hgi]
      refine ⟨rfl, hgi, ?_, ?_⟩
      · simp [hmem]
      · simp [hmem]
    · -- match at index i > 0: shift [1, i], write at 0
      have hin : i ≠ bucket.length := by omega
      have hsh : (shiftRightFrom bucket 0 i).getD 0 czero = bucket.getD 0 czero := by
        rw [getD_shiftRightFrom _ _ _ _ hn]
        simp
      have hcond : ¬ ((shiftRightFrom bucket 0 i).getD 0 czero = (⟨h, a⟩ : Cell)) := by
        rw [hsh]; exact hmin 0 hi0
      have hval : push_front_hash_addr bucket h a =
          ⟨(shiftRightFrom bucket 0 i).set 0 ⟨h, a⟩, true, false, true⟩ := by
        simp [push_front_hash_addr, hf, hi0, hin, ← List.getD_eq_getElem?_getD, hcond]
      rw [hval, hsrc]
      refine ⟨shiftRight_set_eq_rotRight_set bucket 0 i _, ?_, ?_, ?_⟩
      · exact getD_set_eq _ 0 _ (by rw [length_shiftRightFrom]; exact hn)
      · simp [hmem]
      · simp [hmem]

/-- Witness for `push_front_spec` at a concrete input: a one-cell bucket
holding an empty cell receives the new entry at index 0. -/
theorem push_front_spec_witness :
    (push_front_hash_addr [czero] 1 0x2000).bucket
      = (rotRight [czero] 0 (pfSource [czero] ⟨1, 0x2000⟩)).set 0 ⟨1, 0x2000⟩ :=
  (push_front_spec [czero] 1 0x2000 (by decide)).1

/-- C4: if the bucket holds `(hash, addr)` at (first) index `i` with
`pos < i`, `push_random` rotates `[pos, i]` right by one, writes the entry at
`pos`, dirties the extent, returns true, and leaves every cell outside
`[pos, i]` unchanged. -/
theorem push_random_bump_spec (bucket : List Cell) (h a pos i : Nat)
    (hi : i < bucket.length) (hgi : bucket.getD i czero = ⟨h, a⟩)
    (hmin : ∀ j, j < i → bucket.getD j czero ≠ ⟨h, a⟩) (hpi : pos < i) :
    (push_random_hash_addr bucket h a pos).bucket
      = (rotRight bucket pos i).set pos ⟨h, a⟩ ∧
    (push_random_hash_addr bucket h a pos).dirty = true ∧
    (push_random_hash_addr bucket h a pos).found = true ∧
    ∀ k, k < bucket.length → (k < pos ∨ i < k) →
      (push_random_hash_addr bucket h a pos).bucket.getD k czero
        = bucket.getD k czero := by
  have hf : findFirst bucket ⟨h, a⟩ = some i :=
    (findFirst_eq_some_iff bucket _ i).mpr ⟨hi, hgi, hmin⟩
  have hval : push_random_hash_addr bucket h a pos =
      ⟨(shiftRightFrom bucket pos i).set pos ⟨h, a⟩, true, true⟩ := by
    simp [push_random_hash_addr, hf, hpi]
  rw [hval]
  refine ⟨shiftRight_set_eq_rotRight_set bucket pos i _, rfl, rfl, ?_⟩
  intro k hk hout
  have hk' : k < ((shiftRightFrom bucket pos i).set pos ⟨h, a⟩).length := by
    simpa [length_shiftRightFrom] using hk
  have hks : k < (shiftRightFrom bucket pos i).length := by
    simpa [length_shiftRightFrom] using hk
  rw [List.getD_eq_getElem _ czero hk', List.getElem_set,
    if_neg (by omega : ¬ pos = k), ← List.getD_eq_getElem _ czero hks,
    getD_shiftRightFrom _ _ _ _ hk, if_neg (by omega)]

/-- Witness for `push_random_bump_spec`: the entry at index 1 of a two-cell
bucket is bumped to the random position 0. -/
theorem push_random_bump_spec_witness :
    (push_random_hash_addr [⟨1, 0x1000⟩, ⟨2, 0x2000⟩] 2 0x2000 0).bucket
      = (rotRight [⟨1, 0x1000⟩, ⟨2, 0x2000⟩] 0 1).set 0 ⟨2, 0x2000⟩ :=
  (push_random_bump_spec [⟨1, 0x1000⟩, ⟨2, 0x2000⟩] 2 0x2000 0 1 (by decide)
    (by decide)
    (fun j hj => by
      have hj0 : j = 0 := by omega
      subst hj0
      decide)
    (by decide)).1

/-- C5: if the bucket holds `(hash, addr)` at some index `i ≤ pos`,
`push_random` leaves every cell unchanged, does not dirty the extent, and
returns true. -/
theorem push_random_already_spec (bucket : List Cell) (h a pos i : Nat)
    (hi : i < bucket.length) (hgi : bucket.getD i czero = ⟨h, a⟩)
    (hip : i ≤ pos) :
    push_random_hash_addr bucket h a pos = ⟨bucket, false, true⟩ := by
  have hmem : (⟨h, a⟩ : Cell) ∈ bucket := hgi ▸ getD_mem bucket i hi
  rcases hf : findFirst bucket ⟨h, a⟩ with _ | i0
  · exact absurd hmem ((findFirst_eq_none_iff bucket _).mp hf)
  · rcases (findFirst_eq_some_iff bucket _ i0).mp hf with ⟨_, _, hmin⟩
    have hi0 : i0 ≤ i := by
      by_contra hlt
      exact hmin i (by omega) hgi
    have : ¬ pos < i0 := by omega
    simp [push_random_hash_addr, hf, this]

/-- Witness for `push_random_already_spec`: an entry already at index 0 with
random position 0 is left alone. -/
theorem push_random_already_spec_witness :
    push_random_hash_addr [⟨2, 0x2000⟩] 2 0x2000 0 = ⟨[⟨2, 0x2000⟩], false, true⟩ :=
  push_random_already_spec [⟨2, 0x2000⟩] 2 0x2000 0 0 (by decide) (by decide)
    (by decide)

/-- C3: if the bucket holds no cell equal to `(hash, addr)` and
`pos < C`, `push_random` dirties the extent and returns false, and writes the
entry into the first empty cell at or after `pos`; failing that, into the
first empty cell found scanning down from `pos - 1`; failing that, it rotates
`[pos, C-1]` right by one (evicting the last cell) and writes the entry at
`pos`. -/
theorem push_random_no_match_spec (bucket : List Cell) (h a pos : Nat)
    (hnm : (⟨h, a⟩ : Cell) ∉ bucket) (hpos : pos < bucket.length) :
    (push_random_hash_addr bucket h a pos).dirty = true ∧
    (push_random_hash_addr bucket h a pos).found = false ∧
    (∀ i, pos ≤ i → i < bucket.length → bucket.getD i czero = czero →
      (∀ j, pos ≤ j → j < i → bucket.getD j czero ≠ czero) →
      (push_random_hash_addr bucket h a pos).bucket = bucket.set i ⟨h, a⟩) ∧
    ((∀ j, pos ≤ j → j < bucket.length → bucket.getD j czero ≠ czero) →
      ∀ i, i < pos → bucket.getD i czero = czero →
      (∀ j, i < j → j < pos → bucket.getD j czero ≠ czero) →
      (push_random_hash_addr bucket h a pos).bucket = bucket.set i ⟨h, a⟩) ∧
    ((∀ j, j < bucket.length → bucket.getD j czero ≠ czero) →
      (push_random_hash_addr bucket h a pos).bucket
        = (rotRight bucket pos (bucket.length - 1)).set pos ⟨h, a⟩) := by
  have hf : findFirst bucket ⟨h, a⟩ = none := (findFirst_eq_none_iff bucket _).mpr hnm
  rcases hup : findFirst (bucket.drop pos) czero with _ | j0
  · -- no empty cell at or after pos
    have hupfacts : ∀ j, pos ≤ j → j < bucket.length → bucket.getD j czero ≠ czero := by
      intro j hj1 hj2
      have := (findFirst_eq_none_iff _ czero).mp hup
      intro hEq
      refine this ?_
      rw [mem_iff_getD]
      exact ⟨j - pos, by simp [List.length_drop]; omega,
        by rw [getD_drop]; rw [show pos + (j - pos) = j by omega]; exact hEq⟩
    rcases hdown : findEmptyDown bucket pos with _ | i0
    · -- no empty cell anywhere: evict
      have hdownfacts := (findEmptyDown_eq_none_iff bucket pos).mp hdown
      have hval : push_random_hash_addr bucket h a pos =
          ⟨(shiftRightFrom bucket pos (bucket.length - 1)).set pos ⟨h, a⟩,
            true, false⟩ := by
        simp [push_random_hash_addr, hf, hup, hdown]
      rw [hval]
      refine ⟨rfl, rfl, ?_, ?_, ?_⟩
      · intro i h1 h2 h3 _
        exact absurd h3 (hupfacts i h1 h2)
      · intro _ i h1 h2 _
        exact absurd h2 (hdownfacts i h1)
      · intro _
        exact shiftRight_set_eq_rotRight_set bucket pos (bucket.length - 1) _
    · -- first empty cell below pos
      rcases (findEmptyDown_eq_some_iff bucket pos i0).mp hdown with ⟨hi0, hg0, hmax⟩
      have hval : push_random_hash_addr bucket h a pos =
          ⟨bucket.set i0 ⟨h, a⟩, true, false⟩ := by
        simp [push_random_hash_addr, hf, hup, hdown]
      rw [hval]
      refine ⟨rfl, rfl, ?_, ?_, ?_⟩
      · intro i h1 h2 h3 _
        exact absurd h3 (hupfacts i h1 h2)
      · intro _ i h1 h2 h3
        have : i = i0 := by
          rcases Nat.lt_trichotomy i i0 with hlt | hEq | hgt
          · exact absurd hg0 (h3 i0 hlt hi0)
          · exact hEq
          · exact absurd h2 (hmax i hgt h1)
        rw [this]
      · intro hall
        exact absurd hg0 (hall i0 (by omega))
  · -- first empty cell at or after pos
    rcases (findFirst_eq_some_iff _ czero j0).mp hup with ⟨hj0len, hj0g, hj0min⟩
    rw [List.length_drop] at hj0len
    rw [getD_drop] at hj0g
    have hj0min' : ∀ j, pos ≤ j → j < pos + j0 → bucket.getD j czero ≠ czero := by
      intro j hj1 hj2
      have := hj0min (j - pos) (by omega)
      rw [getD_drop, show pos + (j - pos) = j by omega] at this
      exact this
    have hval : push_random_hash_addr bucket h a pos =
        ⟨bucket.set (pos + j0) ⟨h, a⟩, true, false⟩ := by
      simp [push_random_hash_addr, hf, hup]
    rw [hval]
    refine ⟨rfl, rfl, ?_, ?_, ?_⟩
    · intro i h1 h2 h3 h4
      have : i = pos + j0 := by
        rcases Nat.lt_trichotomy i (pos + j0) with hlt | hEq | hgt
        · exact absurd h3 (hj0min' i h1 hlt)
        · exact hEq
        · exact absurd hj0g (h4 (pos + j0) (by omega) hgt)
      rw [this]
    · intro hall
      exact absurd hj0g (hall (pos + j0) (by omega) (by omega))
    · intro hall
      exact absurd hj0g (hall (pos + j0) (by omega))

/-- Witness for `push_random_no_match_spec`: a new entry lands in the first
empty cell at or after the random position 0, which is index 1. -/
theorem push_random_no_match_spec_witness :
    (push_random_hash_addr [⟨1, 0x1000⟩, czero] 2 0x2000 0).bucket
      = [⟨1, 0x1000⟩, czero].set 1 ⟨2, 0x2000⟩ :=
  (push_random_no_match_spec [⟨1, 0x1000⟩, czero] 2 0x2000 0 (by decide)
      (by decide)).2.2.1 1 (by decide) (by decide) (by decide)
    (fun j hj1 hj2 => by
      have hj0 : j = 0 := by omega
      subst hj0
      decide)

theorem find_cell_not_toxic (toxic : Nat → Bool) (s : HashTableView) (h : Nat)
    (ht : toxic h = false) (hm : s.missing = false) :
    find_cell toxic s h
      = (s.cells.filter (fun c => decide (c.e_hash = h ∧ 0x1000 ≤ c.e_addr)), s) := by
  have hs1 : fetch_missing_extent_view s = s := by
    simp [fetch_missing_extent_view, hm]
  have hfil : s.cells.filter (fun c => c.e_hash == h && decide (0x1000 ≤ c.e_addr))
      = s.cells.filter (fun c => decide (c.e_hash = h ∧ 0x1000 ≤ c.e_addr)) := by
    apply List.filter_congr
    intro c _
    by_cases hh : c.e_hash = h <;> by_cases ha : 0x1000 ≤ c.e_addr <;> simp [hh, ha]
  simp [find_cell, ht, hs1, hfil]

/-- C6: for a non-toxic fingerprint on a loaded extent, `find` returns
exactly the cells of the bucket whose fingerprint equals `hash` and whose
address is at least `0x1000`, in bucket order, and modifies nothing. -/
theorem find_cell_spec (toxic : Nat → Bool) (s : HashTableView) (h : Nat)
    (ht : toxic h = false) (hm : s.missing = false) :
    (find_cell toxic s h).1
      = s.cells.filter (fun c => decide (c.e_hash = h ∧ 0x1000 ≤ c.e_addr)) ∧
    (∀ c, c ∈ (find_cell toxic s h).1 ↔
      (c ∈ s.cells ∧ c.e_hash = h ∧ 0x1000 ≤ c.e_addr)) ∧
    (find_cell toxic s h).1.Sublist s.cells ∧
    (find_cell toxic s h).2 = s := by
  rw [find_cell_not_toxic toxic s h ht hm]
  refine ⟨rfl, ?_, List.filter_sublist _, rfl⟩
  intro c
  simp [List.mem_filter, and_assoc]

/-- Witness for `find_cell_spec`: a bucket with one matching valid cell, one
matching cell with a reserved address (filtered out), and one non-matching
cell. -/
theorem find_cell_spec_witness :
    (find_cell (fun _ => false)
        ⟨[⟨5, 0x2000⟩, ⟨5, 0x10⟩, ⟨6, 0x3000⟩], [], false⟩ 5).1
      = [⟨5, 0x2000⟩, ⟨5, 0x10⟩, ⟨6, 0x3000⟩].filter
          (fun c => decide (c.e_hash = 5 ∧ 0x1000 ≤ c.e_addr)) :=
  (find_cell_spec (fun _ => false) ⟨[⟨5, 0x2000⟩, ⟨5, 0x10⟩, ⟨6, 0x3000⟩], [], false⟩
    5 rfl rfl).1

/-- C7: for a toxic fingerprint, `find` returns exactly one cell whose
address is `0x1000` with the toxic flag set, and neither reads nor writes
the store — the state (including the missing flag) is returned untouched. -/
theorem find_cell_toxic_spec (toxic : Nat → Bool) (s : HashTableView) (h : Nat)
    (ht : toxic h = true) :
    find_cell toxic s h = ([⟨h, set_toxic 0x1000⟩], s) ∧
    is_toxic_addr (set_toxic 0x1000) = true ∧
    set_toxic 0x1000 ^^^ c_toxic_mask = 0x1000 := by
  refine ⟨by simp [find_cell, ht], by decide, by decide⟩

/-- Witness for `find_cell_toxic_spec`: the extent is still missing and stays
missing — no page-in happens on the toxic path. -/
theorem find_cell_toxic_spec_witness :
    find_cell (fun x => x == 7) ⟨[⟨1, 0x1000⟩], [], true⟩ 7
      = ([⟨7, set_toxic 0x1000⟩], ⟨[⟨1, 0x1000⟩], [], true⟩) :=
  (find_cell_toxic_spec (fun x => x == 7) ⟨[⟨1, 0x1000⟩], [], true⟩ 7 (by decide)).1

theorem two_le_count_of_getD (l : List Cell) (x : Cell) (i j : Nat) (hij : i ≠ j)
    (hi : i < l.length) (hj : j < l.length)
    (hgi : l.getD i czero = x) (hgj : l.getD j czero = x) : 2 ≤ l.count x := by
  induction l generalizing i j with
  | nil => simp at hi
  | cons c rest ih =>
    rcases i with _ | i' <;> rcases j with _ | j'
    · omega
    · have hc : c = x := by simpa using hgi
      have hx : x ∈ rest := by
        rw [mem_iff_getD]
        exact ⟨j', by simpa using hj, by simpa using hgj⟩
      have h1 : 0 < rest.count x := List.count_pos_iff.mpr hx
      rw [hc, List.count_cons_self]
      omega
    · have hc : c = x := by simpa using hgj
      have hx : x ∈ rest := by
        rw [mem_iff_getD]
        exact ⟨i', by simpa using hi, by simpa using hgi⟩
      have h1 : 0 < rest.count x := List.count_pos_iff.mpr hx
      rw [hc, List.count_cons_self]
      omega
    · have h2 := ih i' j' (by omega) (by simpa using hi) (by simpa using hj)
        (by simpa using hgi) (by simpa using hgj)
      by_cases hcx : c = x
      · rw [hcx, List.count_cons_self]
        omega
      · rw [List.count_cons_of_ne (fun hEq => hcx hEq.symm)]
        omega

/-- C8 (amended): for every bucket state, `erase(hash, addr)` overwrites the
first cell equal to `(hash, addr)` with the empty cell, leaves every other
cell in place (no compaction) and marks the extent dirty; with no match
nothing changes. If, in addition, the bucket holds at most one copy of
`(hash, addr)` — guaranteed by the no-duplicates invariant — a subsequent
`find(hash)` returns no cell with address `addr`. -/
theorem erase_spec (bucket : List Cell) (h a : Nat) (toxic : Nat → Bool)
    (htox : toxic h = false) :
    ((⟨h, a⟩ : Cell) ∉ bucket → erase_hash_addr bucket h a = ⟨bucket, false, false⟩) ∧
    (∀ i, i < bucket.length → bucket.getD i czero = ⟨h, a⟩ →
      (∀ j, j < i → bucket.getD j czero ≠ ⟨h, a⟩) →
      erase_hash_addr bucket h a = ⟨bucket.set i czero, true, true⟩) ∧
    (bucket.count (⟨h, a⟩ : Cell) ≤ 1 →
      ∀ c, c ∈ (find_cell toxic ⟨(erase_hash_addr bucket h a).bucket, [], false⟩ h).1 →
        c.e_addr ≠ a) := by
  refine ⟨?_, ?_, ?_⟩
  · intro hnm
    have hf : findFirst bucket ⟨h, a⟩ = none := (findFirst_eq_none_iff bucket _).mpr hnm
    simp [erase_hash_addr, hf]
  · intro i hi hgi hmin
    have hf : findFirst bucket ⟨h, a⟩ = some i :=
      (findFirst_eq_some_iff bucket _ i).mpr ⟨hi, hgi, hmin⟩
    simp [erase_hash_addr, hf]
  · intro hcount c hc
    rw [find_cell_not_toxic toxic _ h htox rfl] at hc
    rcases List.mem_filter.mp hc with ⟨hcmem, hp⟩
    rw [decide_eq_true_eq] at hp
    intro haddr
    have hceq : c = (⟨h, a⟩ : Cell) := by
      cases c
      simp only [Cell.mk.injEq]
      exact ⟨hp.1, haddr⟩
    rw [hceq] at hcmem
    rcases hf : findFirst bucket (⟨h, a⟩ : Cell) with _ | i0
    · rw [show erase_hash_addr bucket h a = ⟨bucket, false, false⟩ by
        simp [erase_hash_addr, hf]] at hcmem
      exact (findFirst_eq_none_iff bucket _).mp hf hcmem
    · rcases (findFirst_eq_some_iff bucket _ i0).mp hf with ⟨hi0, hg0, _⟩
      rw [show erase_hash_addr bucket h a = ⟨bucket.set i0 czero, true, true⟩ by
        simp [erase_hash_addr, hf]] at hcmem
      rcases (mem_iff_getD _ _).mp hcmem with ⟨k, hk, hgk⟩
      rw [List.length_set] at hk
      have hk' : k < (bucket.set i0 czero).length := by simpa using hk
      rw [List.getD_eq_getElem _ czero hk', List.getElem_set] at hgk
      by_cases hki : i0 = k
      · rw [if_pos hki] at hgk
        have : a = 0 := ((Cell.mk.injEq _ _ _ _).mp hgk.symm).2
        have := hp.2
        rw [haddr] at this
        omega
      · rw [if_neg hki] at hgk
        have hgk' : bucket.getD k czero = (⟨h, a⟩ : Cell) := by
          rw [List.getD_eq_getElem _ czero hk]
          exact hgk
        have := two_le_count_of_getD bucket ⟨h, a⟩ i0 k hki hi0 hk hg0 hgk'
        omega

/-- Witness for `erase_spec`: erasing the only cell of a one-cell bucket
leaves a hole at index 0 and dirties the extent. -/
theorem erase_spec_witness :
    erase_hash_addr [⟨3, 0x1000⟩] 3 0x1000 = ⟨[⟨3, 0x1000⟩].set 0 czero, true, true⟩ :=
  (erase_spec [⟨3, 0x1000⟩] 3 0x1000 (fun _ => false) rfl).2.1 0
    (by decide) (by decide) (fun j hj => by omega)

/-- C8 counterexample: on a bucket holding the cell `(1, 0x1000)` twice,
`erase(1, 0x1000)` clears only the first copy, so the subsequent
`find(1)` still returns a cell whose address is `0x1000` — the claim's
consequence fails for such a bucket state. -/
theorem erase_find_duplicate_cex :
    (find_cell (fun _ => false)
        ⟨(erase_hash_addr [⟨1, 0x1000⟩, ⟨1, 0x1000⟩] 1 0x1000).bucket, [], false⟩ 1).1
      = [⟨1, 0x1000⟩] ∧ (⟨1, 0x1000⟩ : Cell).e_addr = 0x1000 := by
  decide

/-- C10: `erase(0, 0)` on a bucket with at least one empty cell matches the
first empty cell, rewrites it with the identical empty cell — leaving every
cell unchanged — and still marks the extent dirty and counts `hash_erase`. -/
theorem erase_empty_cell_dirty_spec (bucket : List Cell) (hc : czero ∈ bucket) :
    erase_hash_addr bucket 0 0 = ⟨bucket, true, true⟩ := by
  rcases hf : findFirst bucket czero with _ | i
  · exact absurd hc ((findFirst_eq_none_iff bucket czero).mp hf)
  · rcases (findFirst_eq_some_iff bucket czero i).mp hf with ⟨hi, hgi, _⟩
    have hf' : findFirst bucket (⟨0, 0⟩ : Cell) = some i := hf
    have hval : erase_hash_addr bucket 0 0 = ⟨bucket.set i czero, true, true⟩ := by
      simp [erase_hash_addr, hf']
    rw [hval, set_eq_self_of_getD bucket i czero hgi]

/-- Witness for `erase_empty_cell_dirty_spec`: a one-cell bucket holding only
the empty cell. -/
theorem erase_empty_cell_dirty_spec_witness :
    erase_hash_addr [czero] 0 0 = ⟨[czero], true, true⟩ :=
  erase_empty_cell_dirty_spec [czero] (by decide)

theorem any_mem_cons_split (rest seen : List Cell) (c : Cell) :
    rest.any (fun d => decide (d.e_addr ≠ 0 ∧ d ∈ c :: seen))
      = (decide (c.e_addr ≠ 0 ∧ c ∈ rest) ||
          rest.any (fun d => decide (d.e_addr ≠ 0 ∧ d ∈ seen))) := by
  rw [Bool.eq_iff_iff]
  simp only [List.any_eq_true, decide_eq_true_eq, Bool.or_eq_true, List.mem_cons]
  constructor
  · rintro ⟨d, hd, hne, (rfl | hseen)⟩
    · exact Or.inl ⟨hne, hd⟩
    · exact Or.inr ⟨d, hd, hne, hseen⟩
  · rintro (⟨hne, hc⟩ | ⟨d, hd, hne, hseen⟩)
    · exact ⟨c, hc, hne, Or.inl rfl⟩
    · exact ⟨d, hd, hne, Or.inr hseen⟩

theorem verify_false_fst (seen cells : List Cell) :
    (verify_cell_range false seen cells).1 = cells := by
  induction cells generalizing seen with
  | nil => rfl
  | cons c rest ih => simp [verify_cell_range, ih]

theorem verify_false_snd (seen cells : List Cell) :
    (verify_cell_range false seen cells).2 =
      (cells.any cellMagic ||
        (cells.any (fun d => decide (d.e_addr ≠ 0 ∧ d ∈ seen)) ||
          hasDupCell cells)) := by
  induction cells generalizing seen with
  | nil => simp [verify_cell_range, hasDupCell]
  | cons c rest ih =>
    by_cases hc0 : c.e_addr = 0
    · simp [verify_cell_range, hasDupCell, List.any_cons, cellMagic, hc0, ih]
    · by_cases hcs : c ∈ seen
      · simp [verify_cell_range, hasDupCell, List.any_cons, cellMagic, hc0, hcs]
      · have hseen1 : (if c.e_addr ≠ 0 ∧ c ∉ seen then c :: seen else seen)
            = c :: seen := if_pos ⟨hc0, hcs⟩
        have hdup : decide (c.e_addr ≠ 0 ∧ c ∈ seen) = false := by simp [hcs]
        simp only [verify_cell_range, Bool.and_false, Bool.false_eq_true, if_false,
          hseen1, hdup, List.any_cons, hasDupCell, cellMagic]
        rw [ih (c :: seen), any_mem_cons_split]
        simp only [Bool.false_or, Bool.or_false]
        simp [Bool.or_comm, Bool.or_left_comm, Bool.or_assoc]

theorem verify_false_empty_seen (cells : List Cell) :
    (verify_cell_range false [] cells).2 = hasViolation cells := by
  rw [verify_false_snd]
  have hnil : cells.any (fun d => decide (d.e_addr ≠ 0 ∧ d ∈ ([] : List Cell)))
      = false := by
    induction cells with
    | nil => rfl
    | cons c rest ih => simp [List.any_cons, ih]
  rw [hnil]
  simp [hasViolation]

/-- C1 (amended): the prefetch verification pass is read-only — every cell,
violating or not, is returned with its fields unchanged (because the only
call site uses `clear_bugs = VERIFY_CLEARS_BUGS = false`) — and the pass
reports `true` (triggering the `set_extent_dirty` call) exactly when some
bucket of the extent contains an invariant violation. Moreover
`set_extent_dirty` interprets its argument as a hash, so the call
`set_extent_dirty(ext)` at bees-hash.cc:219 marks extent
`(ext % m_buckets) / c_buckets_per_extent` dirty, not extent `ext`. -/
theorem prefetch_verify_readonly_spec (buckets : List (List Cell)) :
    prefetch_verify_extent buckets = (buckets, buckets.any hasViolation) ∧
    ∀ mB cbpe ext s, (set_extent_dirty mB cbpe ext s).dirty
      = insert ((ext % mB) / cbpe) s.dirty := by
  constructor
  · unfold prefetch_verify_extent
    refine Prod.ext ?_ ?_
    · show (buckets.map _).map Prod.fst = buckets
      induction buckets with
      | nil => rfl
      | cons b rest ih =>
        simpa [VERIFY_CLEARS_BUGS, verify_false_fst] using ih
    · show (buckets.map _).any Prod.snd = buckets.any hasViolation
      induction buckets with
      | nil => rfl
      | cons b rest ih =>
        simp only [List.map_cons, List.any_cons, ih]
        rw [show (verify_cell_range VERIFY_CLEARS_BUGS [] b).2 = hasViolation b from
          verify_false_empty_seen b]
  · intro mB cbpe ext s
    rfl

/-- C1 counterexample: the cell `(1, 5)` violates the magic-address invariant
(non-empty, address below `0x1000`), yet the prefetch pass returns it with
both fields intact — it is not set to zero as the claim requires — while
still reporting the extent as needing a dirty mark. -/
theorem prefetch_verify_no_clear_cex :
    prefetch_verify_extent [[⟨1, 5⟩]] = ([[⟨1, 5⟩]], true) ∧
    (⟨1, 5⟩ : Cell).e_addr ≠ 0 ∧ (⟨1, 5⟩ : Cell).e_addr < 0x1000 ∧
    prefetch_verify_extent [[⟨1, 5⟩]] ≠ ([[czero]], true) := by
  decide

theorem scanner_op_fail (mB cbpe hash : Nat) (dirtied : Bool) (t : ExtState) :
    scanner_op mB cbpe hash false dirtied t = t := by
  simp [scanner_op, fetch_missing_extent]

theorem scanner_op_ok_missing (mB cbpe hash : Nat) (dirtied : Bool) (t : ExtState) :
    (scanner_op mB cbpe hash true dirtied t).missing
      = t.missing.erase (extent_of mB cbpe hash) := by
  cases dirtied <;> simp [scanner_op, fetch_missing_extent, set_extent_dirty]

theorem scanner_op_ok_dirty (mB cbpe hash : Nat) (dirtied : Bool) (t : ExtState) :
    (scanner_op mB cbpe hash true dirtied t).dirty
      = if dirtied then insert (extent_of mB cbpe hash) t.dirty else t.dirty := by
  cases dirtied <;> simp [scanner_op, fetch_missing_extent, set_extent_dirty]

theorem scanner_op_preserves (mB cbpe hash : Nat) (ok dirtied : Bool) (t : ExtState)
    (hP : ∀ e, e ∈ t.dirty → e ∉ t.missing) :
    ∀ e, e ∈ (scanner_op mB cbpe hash ok dirtied t).dirty →
      e ∉ (scanner_op mB cbpe hash ok dirtied t).missing := by
  cases ok with
  | false =>
    rw [scanner_op_fail]
    exact hP
  | true =>
    intro e he
    rw [scanner_op_ok_missing]
    rw [scanner_op_ok_dirty] at he
    cases dirtied with
    | false =>
      rw [if_neg (by simp)] at he
      intro hmem
      exact hP e he (Finset.mem_of_mem_erase hmem)
    | true =>
      rw [if_pos rfl] at he
      rcases Finset.mem_insert.mp he with rfl | he'
      · exact Finset.not_mem_erase _ _
      · intro hmem
        exact hP e he' (Finset.mem_of_mem_erase hmem)

theorem prefetch_step_missing (mB cbpe : Nat) (bug : Nat → Bool) (ext : Nat)
    (t : ExtState) :
    (prefetch_step mB cbpe (fun _ => true) bug ext t).missing
      = t.missing.erase (extent_of mB cbpe (ext * cbpe)) := by
  cases hb : bug ext <;> simp [prefetch_step, fetch_missing_extent, set_extent_dirty, hb]

theorem prefetch_step_dirty (mB cbpe : Nat) (bug : Nat → Bool) (ext : Nat)
    (t : ExtState) :
    (prefetch_step mB cbpe (fun _ => true) bug ext t).dirty
      = if bug ext then insert (extent_of mB cbpe ext) t.dirty else t.dirty := by
  cases hb : bug ext <;> simp [prefetch_step, fetch_missing_extent, set_extent_dirty, hb]

theorem prefetch_pass_inv (mB cbpe mE : Nat) (hc : 0 < cbpe)
    (hmb : mB = mE * cbpe) (bug : Nat → Bool) (s : ExtState)
    (hP : ∀ e, e ∈ s.dirty → e ∉ s.missing) :
    ∀ k, k ≤ mE →
      ((∀ e, e ∈ (prefetch_pass mB cbpe k (fun _ => true) bug s).dirty →
          e ∉ (prefetch_pass mB cbpe k (fun _ => true) bug s).missing) ∧
        (∀ e, e < k →
          e ∉ (prefetch_pass mB cbpe k (fun _ => true) bug s).missing)) := by
  intro k
  induction k with
  | zero =>
    intro _
    exact ⟨by simpa [prefetch_pass] using hP, fun e he => absurd he (by omega)⟩
  | succ k ih =>
    intro hk1
    obtain ⟨ih1, ih2⟩ := ih (by omega)
    have hkE : k < mE := by omega
    have hfold : prefetch_pass mB cbpe (k + 1) (fun _ => true) bug s
        = prefetch_step mB cbpe (fun _ => true) bug k
            (prefetch_pass mB cbpe k (fun _ => true) bug s) := by
      simp [prefetch_pass, List.range_succ]
    have hkmB : k < mB := by
      calc k < mE := hkE
        _ ≤ mE * cbpe := Nat.le_mul_of_pos_right mE hc
        _ = mB := hmb.symm
    have hext : extent_of mB cbpe (k * cbpe) = k := by
      unfold extent_of
      rw [Nat.mod_eq_of_lt (by rw [hmb]; exact Nat.mul_lt_mul_right hc |>.mpr hkE),
        Nat.mul_div_cancel _ hc]
    have htar : extent_of mB cbpe k = k / cbpe := by
      unfold extent_of
      rw [Nat.mod_eq_of_lt hkmB]
    set t := prefetch_pass mB cbpe k (fun _ => true) bug s with ht
    rw [hfold]
    have hmiss : (prefetch_step mB cbpe (fun _ => true) bug k t).missing
        = t.missing.erase k := by
      rw [prefetch_step_missing, hext]
    have hA : ∀ e, e < k + 1 →
        e ∉ (prefetch_step mB cbpe (fun _ => true) bug k t).missing := by
      intro e he
      rw [hmiss]
      rcases Nat.lt_or_ge e k with hek | hek
      · intro hmem
        exact ih2 e hek (Finset.mem_of_mem_erase hmem)
      · have : e = k := by omega
        rw [this]
        exact Finset.not_mem_erase _ _
    refine ⟨?_, hA⟩
    intro e he
    rw [prefetch_step_dirty, htar] at he
    cases hb : bug k with
    | false =>
      rw [hb, if_neg (by simp)] at he
      rw [hmiss]
      intro hmem
      exact ih1 e he (Finset.mem_of_mem_erase hmem)
    | true =>
      rw [hb, if_pos rfl] at he
      rcases Finset.mem_insert.mp he with rfl | he'
      · have hdle : k / cbpe ≤ k := Nat.div_le_self k cbpe
        exact hA _ (by omega)
      · rw [hmiss]
        intro hmem
        exact ih1 e he' (Finset.mem_of_mem_erase hmem)

theorem step_preserves_disjoint (mB cbpe mE : Nat) (hc : 0 < cbpe)
    (hmb : mB = mE * cbpe) (t u : ExtState)
    (hP : ∀ e, e ∈ t.dirty → e ∉ t.missing) (hstep : StepOk mB cbpe mE t u) :
    ∀ e, e ∈ u.dirty → e ∉ u.missing := by
  cases hstep with
  | scanner hash ok dirtied s =>
    exact scanner_op_preserves mB cbpe hash ok dirtied t hP
  | prefetch bug s =>
    exact (prefetch_pass_inv mB cbpe mE hc hmb bug t hP mE (Nat.le_refl mE)).1
  | flush s =>
    intro e he
    simp [flush_dirty_extents] at he

/-- C9 (amended): in every state reachable by scanner operations, prefetch
passes and writeback flushes from the initial state (all extents missing,
none dirty), no extent is both dirty and missing, provided every extent read
issued by the prefetch pass succeeds (scanner page-ins may fail: a failed
scanner fetch aborts its operation before any mutation). A mutation dirties
only the extent its operation has already fetched, the all-reads-succeeding
prefetch pass fetches extents in order before (mis)directing its dirty marks
at already-fetched extents, and nothing ever re-enters the missing set. The
geometry hypotheses are those checked at construction: a positive number of
buckets per extent and `m_buckets = m_extents * c_buckets_per_extent`. -/
theorem dirty_missing_disjoint (mB cbpe mE : Nat) (hc : 0 < cbpe)
    (hmb : mB = mE * cbpe) (s : ExtState)
    (hreach : Relation.ReflTransGen (StepOk mB cbpe mE) (initState mE) s) :
    ∀ e, e ∈ s.dirty → e ∉ s.missing := by
  induction hreach with
  | refl =>
    intro e he
    simp [initState] at he
  | tail hab hbc ih =>
    exact step_preserves_disjoint mB cbpe mE hc hmb _ _ ih hbc

/-- Witness for `dirty_missing_disjoint`: with 4 extents of 2 buckets each
(8 buckets), one dirtying scanner operation on hash 5 (whose page-in
succeeded) reaches a state whose dirty extent 2 is indeed not missing. -/
theorem dirty_missing_disjoint_witness :
    (2 : Nat) ∉ (scanner_op 8 2 5 true true (initState 4)).missing :=
  dirty_missing_disjoint 8 2 4 (by decide) (by decide)
    (scanner_op 8 2 5 true true (initState 4))
    (Relation.ReflTransGen.single (StepOk.scanner 5 true true (initState 4)))
    2 (by decide)

/-- C9 counterexample: with 4 extents of 2 buckets each (8 buckets), if the
prefetch read of extent 0 fails — swallowed by the per-extent `catch_all`
(bees-hash.cc:183), leaving extent 0 missing — and the verifier then finds a
violation in extent 1, the pass calls `set_extent_dirty(1)`, which, keyed by
hash, marks extent `(1 % 8) / 2 = 0` dirty. One prefetch step from the
initial state, outside any writeback window, thus reaches a state in which
extent 0 is simultaneously dirty and missing, refuting the claim as stated. -/
theorem dirty_missing_failed_fetch_cex :
    Step 8 2 4 (initState 4)
      (prefetch_pass 8 2 4 (fun e => e != 0) (fun e => e == 1) (initState 4)) ∧
    (0 : Nat) ∈
      (prefetch_pass 8 2 4 (fun e => e != 0) (fun e => e == 1) (initState 4)).dirty ∧
    (0 : Nat) ∈
      (prefetch_pass 8 2 4 (fun e => e != 0) (fun e => e == 1) (initState 4)).missing :=
  ⟨Step.prefetch (fun e => e != 0) (fun e => e == 1) (initState 4),
    by decide, by decide⟩

end Bees
